import Mathlib

/-!
# Verification of the `BinarySearchTree` class
  (`algorithms_revision_snippets.py`)

Shallow embedding of the ordered-key binary search tree from the study-notes
repository: `insert_value` / `_insert_recursive`, `find_value` /
`_find_recursive`, and `get_inorder_values` / `_inorder_traversal`, together
with proofs of the specification's testable properties.

A `TreeNode` with its two optional children is modelled as an inductive tree:
`Tree.nil` stands for Python's `None`, and `Tree.node value left right` for a
`TreeNode` whose `value`, `left_child`, `right_child` fields are the three
arguments.  A `BinarySearchTree` object is identified with its `root_node`
(a `Tree`); an empty tree is `Tree.nil`.
-/

namespace BST

inductive Tree (α : Type) where
  | nil : Tree α
  | node (value : α) (left_child : Tree α) (right_child : Tree α) : Tree α
deriving DecidableEq, Repr

variable {α : Type}

/-- `BinarySearchTree._insert_recursive(current_node, value)`.  The source
only ever calls this with a non-`None` node; on `nil` we return `nil`
(the case is unreachable from `insert_value`).  Mirrors the source exactly:
`value < current_node.value` routes left, otherwise (equal or greater)
right; a new node is attached when the child slot is absent. -/
def insert_recursive [LinearOrder α] : Tree α → α → Tree α
  | .nil, _ => .nil
  | .node value left_child right_child, v =>
    if v < value then
      match left_child with
      | .node a b c => Tree.node value (insert_recursive (.node a b c) v) right_child
      | .nil => Tree.node value (.node v .nil .nil) right_child
    else
      match right_child with
      | .node a b c => Tree.node value left_child (insert_recursive (.node a b c) v)
      | .nil => Tree.node value left_child (.node v .nil .nil)

/-- `BinarySearchTree.insert_value(value)`: if the root is absent the new
node becomes the root, otherwise insert recursively from the root. -/
def insert_value [LinearOrder α] (t : Tree α) (v : α) : Tree α :=
  match t with
  | .nil => .node v .nil .nil
  | .node a b c => insert_recursive (.node a b c) v

/-- `BinarySearchTree._find_recursive(current_node, value)`. -/
def find_recursive [LinearOrder α] : Tree α → α → Bool
  | .nil, _ => false
  | .node value left_child right_child, v =>
    if v = value then true
    else if v < value then find_recursive left_child v
    else find_recursive right_child v

/-- `BinarySearchTree.find_value(value)`. -/
def find_value [LinearOrder α] (t : Tree α) (v : α) : Bool :=
  find_recursive t v

/-- `BinarySearchTree._inorder_traversal(current_node, result)`: the Python
code mutates the accumulator list `result` in place (left traversal, then
`result.append(value)`, then right traversal); here the updated accumulator
is returned. -/
def inorder_traversal : Tree α → List α → List α
  | .nil, result => result
  | .node value left_child right_child, result =>
      inorder_traversal right_child
        ((inorder_traversal left_child result) ++ [value])

/-- `BinarySearchTree.get_inorder_values()`: traverse from the root into a
fresh empty list. -/
def get_inorder_values (t : Tree α) : List α :=
  inorder_traversal t []

/-- Building a tree by inserting a list of keys one at a time into an
initially empty tree (as the demo script's `for number in numbers_to_add`
loop does). -/
def buildTree [LinearOrder α] (l : List α) : Tree α :=
  l.foldl insert_value .nil

/-- Non-accumulator in-order listing, used for reasoning; proved equal to
`get_inorder_values` below. -/
def inorder : Tree α → List α
  | .nil => []
  | .node value left_child right_child =>
      inorder left_child ++ value :: inorder right_child

/-- The BST ordering invariant, as the spec states it: at every node all
keys of the left subtree are strictly less than the node's key and all keys
of the right subtree are greater than or equal to it (ties go right). -/
def isBST [LinearOrder α] : Tree α → Bool
  | .nil => true
  | .node value left_child right_child =>
      (inorder left_child).all (fun x => decide (x < value)) &&
      (inorder right_child).all (fun x => decide (value ≤ x)) &&
      isBST left_child && isBST right_child

/-- Every node of the tree has an absent left child (right-only chain). -/
def allLeftNil [DecidableEq α] : Tree α → Bool
  | .nil => true
  | .node _ left_child right_child =>
      (decide (left_child = Tree.nil)) && allLeftNil right_child

/-- Depth of the tree: number of nodes on the longest root-to-leaf path. -/
def height : Tree α → Nat
  | .nil => 0
  | .node _ left_child right_child =>
      1 + max (height left_child) (height right_child)

/-- `isSubtree s t` holds when `s` occurs as a subtree of `t` (possibly
`t` itself). -/
def isSubtree [DecidableEq α] (s : Tree α) : Tree α → Bool
  | .nil => decide (s = Tree.nil)
  | .node value left_child right_child =>
      decide (s = Tree.node value left_child right_child) ||
      isSubtree s left_child || isSubtree s right_child

theorem inorder_traversal_eq (t : Tree α) (acc : List α) :
    inorder_traversal t acc = acc ++ inorder t := by
  induction t generalizing acc with
  | nil => simp [inorder_traversal, inorder]
  | node v l r ihl ihr =>
      simp [inorder_traversal, inorder, ihl, ihr, List.append_assoc]

theorem get_inorder_values_eq (t : Tree α) :
    get_inorder_values t = inorder t := by
  simp [get_inorder_values, inorder_traversal_eq]

theorem insert_value_nil [LinearOrder α] (v : α) :
    insert_value (Tree.nil : Tree α) v = Tree.node v .nil .nil := rfl

theorem insert_value_node [LinearOrder α] (value : α) (l r : Tree α) (v : α) :
    insert_value (Tree.node value l r) v =
      if v < value then Tree.node value (insert_value l v) r
      else Tree.node value l (insert_value r v) := by
  cases l <;> cases r <;> by_cases h : v < value <;>
    simp [insert_value, insert_recursive, h]

theorem inorder_insert_perm [LinearOrder α] (t : Tree α) (v : α) :
    (inorder (insert_value t v)).Perm (v :: inorder t) := by
  induction t with
  | nil => simp [insert_value_nil, inorder]
  | node value l r ihl ihr =>
      rw [insert_value_node]
      by_cases h : v < value
      · rw [if_pos h]
        simp only [inorder]
        exact ihl.append_right (value :: inorder r)
      · rw [if_neg h]
        simp only [inorder]
        have h1 : (inorder l ++ value :: inorder (insert_value r v)).Perm
            (inorder l ++ value :: (v :: inorder r)) :=
          (ihr.cons value).append_left (inorder l)
        refine h1.trans ?_
        have h2 : inorder l ++ value :: (v :: inorder r) =
            (inorder l ++ [value]) ++ v :: inorder r := by
          simp [List.append_assoc]
        rw [h2]
        refine List.perm_middle.trans ?_
        rw [List.append_assoc, List.singleton_append]

theorem mem_inorder_insert [LinearOrder α] {x : α} (t : Tree α) (v : α) :
    x ∈ inorder (insert_value t v) ↔ x = v ∨ x ∈ inorder t := by
  rw [(inorder_insert_perm t v).mem_iff]
  simp

theorem isBST_insert [LinearOrder α] {t : Tree α} (v : α)
    (h : isBST t = true) : isBST (insert_value t v) = true := by
  induction t with
  | nil => simp [insert_value_nil, isBST, inorder]
  | node value l r ihl ihr =>
      simp only [isBST, Bool.and_eq_true, List.all_eq_true,
        decide_eq_true_eq] at h
      obtain ⟨⟨⟨hl, hr⟩, hbl⟩, hbr⟩ := h
      rw [insert_value_node]
      by_cases hv : v < value
      · simp only [hv, if_pos, isBST, Bool.and_eq_true, List.all_eq_true,
          decide_eq_true_eq]
        refine ⟨⟨⟨?_, hr⟩, ihl hbl⟩, hbr⟩
        intro x hx
        rcases (mem_inorder_insert l v).mp hx with hxv | hxl
        · exact hxv ▸ hv
        · exact hl x hxl
      · simp only [hv, if_neg, not_false_iff, isBST, Bool.and_eq_true,
          List.all_eq_true, decide_eq_true_eq]
        refine ⟨⟨⟨hl, ?_⟩, hbl⟩, ihr hbr⟩
        intro x hx
        rcases (mem_inorder_insert r v).mp hx with hxv | hxr
        · exact hxv ▸ le_of_not_lt hv
        · exact hr x hxr

theorem sorted_inorder [LinearOrder α] {t : Tree α}
    (h : isBST t = true) : (inorder t).Sorted (· ≤ ·) := by
  induction t with
  | nil => simp [inorder]
  | node value l r ihl ihr =>
      simp only [isBST, Bool.and_eq_true, List.all_eq_true,
        decide_eq_true_eq] at h
      obtain ⟨⟨⟨hl, hr⟩, hbl⟩, hbr⟩ := h
      simp only [inorder]
      have hpw : List.Pairwise (· ≤ ·) (inorder l ++ value :: inorder r) := by
        rw [List.pairwise_append]
        refine ⟨ihl hbl, ?_, ?_⟩
        · rw [List.pairwise_cons]
          exact ⟨fun b hb => hr b hb, ihr hbr⟩
        · intro a ha b hb
          rcases List.mem_cons.mp hb with hbv | hbr2
          · exact hbv ▸ le_of_lt (hl a ha)
          · exact le_trans (le_of_lt (hl a ha)) (hr b hbr2)
      exact hpw

theorem find_iff_mem [LinearOrder α] {t : Tree α} (k : α)
    (h : isBST t = true) : find_recursive t k = true ↔ k ∈ inorder t := by
  induction t with
  | nil => simp [find_recursive, inorder]
  | node value l r ihl ihr =>
      simp only [isBST, Bool.and_eq_true, List.all_eq_true,
        decide_eq_true_eq] at h
      obtain ⟨⟨⟨hl, hr⟩, hbl⟩, hbr⟩ := h
      simp only [find_recursive, inorder, List.mem_append, List.mem_cons]
      by_cases he : k = value
      · simp [he]
      · rw [if_neg he]
        by_cases hlt : k < value
        · rw [if_pos hlt, ihl hbl]
          constructor
          · exact fun hm => Or.inl hm
          · rintro (hm | hm | hm)
            · exact hm
            · exact absurd hm he
            · exact absurd (hr k hm) (not_le_of_lt hlt)
        · rw [if_neg hlt, ihr hbr]
          constructor
          · exact fun hm => Or.inr (Or.inr hm)
          · rintro (hm | hm | hm)
            · exact absurd (hl k hm) hlt
            · exact absurd hm he
            · exact hm

theorem foldl_insert_isBST [LinearOrder α] (l : List α) {t : Tree α}
    (h : isBST t = true) : isBST (l.foldl insert_value t) = true := by
  induction l generalizing t with
  | nil => exact h
  | cons a l ih => exact ih (isBST_insert a h)

theorem foldl_insert_inorder_perm [LinearOrder α] (l : List α) (t : Tree α) :
    (inorder (l.foldl insert_value t)).Perm (l ++ inorder t) := by
  induction l generalizing t with
  | nil => simp
  | cons a l ih =>
      simp only [List.foldl_cons]
      refine (ih (insert_value t a)).trans ?_
      refine ((inorder_insert_perm t a).append_left l).trans ?_
      exact List.perm_middle

theorem isBST_buildTree [LinearOrder α] (l : List α) :
    isBST (buildTree l) = true :=
  foldl_insert_isBST l rfl

theorem inorder_buildTree_perm [LinearOrder α] (l : List α) :
    (inorder (buildTree l)).Perm l := by
  have h := foldl_insert_inorder_perm l (Tree.nil : Tree α)
  simpa [inorder] using h

theorem find_insert_self [LinearOrder α] (t : Tree α) (v : α) :
    find_recursive (insert_value t v) v = true := by
  induction t with
  | nil => simp [insert_value_nil, find_recursive]
  | node value l r ihl ihr =>
      rw [insert_value_node]
      by_cases h : v < value
      · rw [if_pos h]
        simp [find_recursive, ne_of_lt h, h, ihl]
      · rw [if_neg h]
        by_cases he : v = value
        · simp [find_recursive, he]
        · simp [find_recursive, he, h, ihr]

theorem subtree_double_insert [LinearOrder α] (t : Tree α) (v : α) :
    isSubtree (Tree.node v .nil (.node v .nil .nil))
      (insert_value (insert_value t v) v) = true := by
  induction t with
  | nil =>
      simp [insert_value, insert_recursive, isSubtree, lt_irrefl]
  | node value l r ihl ihr =>
      rw [insert_value_node]
      by_cases h : v < value
      · rw [if_pos h, insert_value_node, if_pos h]
        simp [isSubtree, ihl]
      · rw [if_neg h, insert_value_node, if_neg h]
        simp [isSubtree, ihr]

theorem inorder_of_isSubtree [DecidableEq α] {s t : Tree α}
    (h : isSubtree s t = true) :
    ∃ A B, inorder t = A ++ inorder s ++ B := by
  induction t with
  | nil =>
      simp only [isSubtree, decide_eq_true_eq] at h
      exact ⟨[], [], by simp [h, inorder]⟩
  | node value l r ihl ihr =>
      simp only [isSubtree, Bool.or_eq_true, decide_eq_true_eq] at h
      rcases h with (heq | hsl) | hsr
      · exact ⟨[], [], by simp [heq]⟩
      · obtain ⟨A, B, hAB⟩ := ihl hsl
        exact ⟨A, B ++ value :: inorder r,
          by simp [inorder, hAB, List.append_assoc]⟩
      · obtain ⟨A, B, hAB⟩ := ihr hsr
        exact ⟨inorder l ++ value :: A, B,
          by simp [inorder, hAB, List.append_assoc]⟩

/-- State-passing form of `_find_recursive`: the returned pair is the
boolean result together with the tree state after the call (the method body
performs no field assignment, so each node is rebuilt from the states its
children have after the recursive calls). -/
def find_recursiveS [LinearOrder α] : Tree α → α → Bool × Tree α
  | .nil, _ => (false, .nil)
  | .node value left_child right_child, v =>
      if v = value then (true, .node value left_child right_child)
      else if v < value then
        let p := find_recursiveS left_child v
        (p.1, .node value p.2 right_child)
      else
        let p := find_recursiveS right_child v
        (p.1, .node value left_child p.2)

/-- State-passing form of `find_value`. -/
def find_valueS [LinearOrder α] (t : Tree α) (v : α) : Bool × Tree α :=
  find_recursiveS t v

/-- State-passing form of `_inorder_traversal`. -/
def inorder_traversalS : Tree α → List α → List α × Tree α
  | .nil, result => (result, .nil)
  | .node value left_child right_child, result =>
      let p := inorder_traversalS left_child result
      let q := inorder_traversalS right_child (p.1 ++ [value])
      (q.1, .node value p.2 q.2)

/-- State-passing form of `get_inorder_values`. -/
def get_inorder_valuesS (t : Tree α) : List α × Tree α :=
  inorder_traversalS t []

theorem find_recursiveS_eq [LinearOrder α] (t : Tree α) (v : α) :
    find_recursiveS t v = (find_recursive t v, t) := by
  induction t with
  | nil => rfl
  | node value l r ihl ihr =>
      simp only [find_recursiveS, find_recursive, ihl, ihr]
      by_cases he : v = value
      · simp [he]
      · by_cases hlt : v < value <;> simp [he, hlt]

theorem inorder_traversalS_eq (t : Tree α) (acc : List α) :
    inorder_traversalS t acc = (inorder_traversal t acc, t) := by
  induction t generalizing acc with
  | nil => rfl
  | node value l r ihl ihr =>
      simp [inorder_traversalS, inorder_traversal, ihl, ihr]

/-!
## Dynamic typing and incomparable keys

The Python class accepts any value; comparing values of unrelated types
(for instance `int` against `str`) raises `TypeError` from the `<`
operator, while `==` between them just returns `False`.  `PyVal` models
a two-type universe of such values, and the `E`-suffixed operations model
the methods under this dynamic comparison, pairing each result with the
raised error (if any) and the tree state after the call.
-/

inductive PyVal where
  | int (n : Int)
  | str (s : String)
deriving DecidableEq, Repr

/-- Python `==` between mixed-type values: returns `False` instead of
raising. -/
def pyEq : PyVal → PyVal → Bool
  | .int a, .int b => decide (a = b)
  | .str a, .str b => decide (a = b)
  | _, _ => false

/-- Two values can be ordered against each other (same runtime type). -/
def comparable : PyVal → PyVal → Bool
  | .int _, .int _ => true
  | .str _, .str _ => true
  | _, _ => false

/-- The boolean outcome of Python `<` on same-type values (`false` on
mixed types, where `<` raises instead and this value is never consulted). -/
def pyLtB : PyVal → PyVal → Bool
  | .int a, .int b => decide (a < b)
  | .str a, .str b => decide (a < b)
  | _, _ => false

/-- The `TypeError` message Python raises for `<` on mixed types. -/
def pyTypeError (a b : PyVal) : String :=
  match a, b with
  | .int _, .str _ =>
      "TypeError: '<' not supported between instances of 'int' and 'str'"
  | .str _, .int _ =>
      "TypeError: '<' not supported between instances of 'str' and 'int'"
  | _, _ => ""

/-- Python `<` between values: the boolean result on same-type operands,
a raised `TypeError` on mixed types. -/
def pyLt (a b : PyVal) : Except String Bool :=
  if comparable a b then .ok (pyLtB a b) else .error (pyTypeError a b)

/-- `_insert_recursive` under dynamic typing: first component is the raised
error (if any), second is the tree state after the call.  The comparison
`value < current_node.value` (`pyLt v value`, inlined here as the
comparability test followed by the boolean outcome) is evaluated before any
child assignment, so an error leaves the node and its children untouched. -/
def insert_recursiveE : Tree PyVal → PyVal → Option String × Tree PyVal
  | .nil, _ => (none, .nil)
  | .node value left_child right_child, v =>
    if comparable v value then
      if pyLtB v value then
        match left_child with
        | .node a b c =>
            let p := insert_recursiveE (.node a b c) v
            (p.1, .node value p.2 right_child)
        | .nil => (none, .node value (.node v .nil .nil) right_child)
      else
        match right_child with
        | .node a b c =>
            let p := insert_recursiveE (.node a b c) v
            (p.1, .node value left_child p.2)
        | .nil => (none, .node value left_child (.node v .nil .nil))
    else (some (pyTypeError v value), .node value left_child right_child)

/-- `insert_value` under dynamic typing. -/
def insert_valueE (t : Tree PyVal) (v : PyVal) : Option String × Tree PyVal :=
  match t with
  | .nil => (none, .node v .nil .nil)
  | .node a b c => insert_recursiveE (.node a b c) v

/-- `_find_recursive` under dynamic typing (read-only, so only the raised
error or the boolean result is returned).  The `value == current_node.value`
test (`pyEq`) never raises; the subsequent `value < current_node.value`
test raises on incomparable operands. -/
def find_recursiveE : Tree PyVal → PyVal → Except String Bool
  | .nil, _ => .ok false
  | .node value left_child right_child, v =>
    if pyEq v value then .ok true
    else if comparable v value then
      if pyLtB v value then find_recursiveE left_child v
      else find_recursiveE right_child v
    else .error (pyTypeError v value)

/-- `find_value` under dynamic typing. -/
def find_valueE (t : Tree PyVal) (v : PyVal) : Except String Bool :=
  find_recursiveE t v

/-- Whether an `Except`-valued call raised. -/
def raised : Except String Bool → Bool
  | .error _ => true
  | .ok _ => false

theorem pyEq_false_of_not_comparable {v x : PyVal}
    (h : comparable v x = false) : pyEq v x = false := by
  cases v <;> cases x <;> simp [comparable] at h ⊢ <;> rfl

theorem insert_valueE_node (value : PyVal) (l r : Tree PyVal) (v : PyVal) :
    insert_valueE (Tree.node value l r) v =
      if comparable v value then
        if pyLtB v value then
          ((insert_valueE l v).1, .node value (insert_valueE l v).2 r)
        else
          ((insert_valueE r v).1, .node value l (insert_valueE r v).2)
      else (some (pyTypeError v value), .node value l r) := by
  cases l <;> cases r <;> by_cases hc : comparable v value <;>
    by_cases hb : pyLtB v value <;>
    simp [insert_valueE, insert_recursiveE, hc, hb]

theorem insert_valueE_error_unchanged (t : Tree PyVal) (v : PyVal)
    (h : (insert_valueE t v).1.isSome = true) :
    (insert_valueE t v).2 = t := by
  induction t with
  | nil => simp [insert_valueE] at h
  | node value l r ihl ihr =>
      rw [insert_valueE_node] at h ⊢
      by_cases hc : comparable v value
      · rw [if_pos hc] at h ⊢
        by_cases hb : pyLtB v value
        · rw [if_pos hb] at h ⊢
          simp only at h ⊢
          rw [ihl h]
        · rw [if_neg hb] at h ⊢
          simp only at h ⊢
          rw [ihr h]
      · rw [if_neg hc]

theorem insert_valueE_raises {value : PyVal} {l r : Tree PyVal} {v : PyVal}
    (h : comparable v value = false) :
    (insert_valueE (Tree.node value l r) v).1.isSome = true := by
  rw [insert_valueE_node, if_neg (by simp [h])]
  rfl

theorem find_valueE_raises {value : PyVal} {l r : Tree PyVal} {v : PyVal}
    (h : comparable v value = false) :
    raised (find_valueE (Tree.node value l r) v) = true := by
  simp [find_valueE, find_recursiveE, pyEq_false_of_not_comparable h, h,
    raised]

theorem insert_valueE_ok (t : Tree PyVal) (v : PyVal)
    (h : ∀ x ∈ inorder t, comparable v x = true) :
    (insert_valueE t v).1 = none := by
  induction t with
  | nil => rfl
  | node value l r ihl ihr =>
      have hval : comparable v value = true :=
        h value (by simp [inorder])
      rw [insert_valueE_node, if_pos hval]
      by_cases hb : pyLtB v value
      · rw [if_pos hb]
        exact ihl fun x hx => h x (by simp [inorder, hx])
      · rw [if_neg hb]
        exact ihr fun x hx => h x (by simp [inorder, hx])

theorem find_recursiveE_ok (t : Tree PyVal) (v : PyVal)
    (h : ∀ x ∈ inorder t, comparable v x = true) :
    raised (find_recursiveE t v) = false := by
  induction t with
  | nil => rfl
  | node value l r ihl ihr =>
      have hval : comparable v value = true :=
        h value (by simp [inorder])
      by_cases heq : pyEq v value = true
      · simp [find_recursiveE, heq, raised]
      · by_cases hb : pyLtB v value
        · rw [show find_recursiveE (Tree.node value l r) v =
              find_recursiveE l v by
            simp [find_recursiveE, heq, hval, hb]]
          exact ihl fun x hx => h x (by simp [inorder, hx])
        · rw [show find_recursiveE (Tree.node value l r) v =
              find_recursiveE r v by
            simp [find_recursiveE, heq, hval, hb]]
          exact ihr fun x hx => h x (by simp [inorder, hx])

/-!
## The claims
-/

/-- C1: for every finite sequence of keys inserted one at a time into an
initially empty tree via `insert_value`, `get_inorder_values` returns the
stored keys in non-decreasing order. -/
theorem inorderKeys_sorted {α : Type} [LinearOrder α] (l : List α) :
    (get_inorder_values (buildTree l)).Sorted (· ≤ ·) := by
  rw [get_inorder_values_eq]
  exact sorted_inorder (isBST_buildTree l)

/-- C2: for every tree built by a sequence of insertions, `find_value k`
returns true exactly when `k` was one of the inserted keys; in particular
it returns false for any key never inserted. -/
theorem contains_iff_inserted {α : Type} [LinearOrder α] (l : List α)
    (k : α) : find_value (buildTree l) k = true ↔ k ∈ l := by
  have h := find_iff_mem k (isBST_buildTree l)
  rw [(inorder_buildTree_perm l).mem_iff] at h
  exact h

/-- C3: inserting a key `v` twice into any tree leaves the two copies
adjacent in `get_inorder_values`, places the second copy as the right child
of the node created for the first (ties route right), and `find_value v`
still returns true. -/
theorem duplicate_insert_adjacent {α : Type} [LinearOrder α] (t : Tree α)
    (v : α) :
    (∃ A B, get_inorder_values (insert_value (insert_value t v) v) =
        A ++ v :: v :: B)
    ∧ isSubtree (Tree.node v .nil (.node v .nil .nil))
        (insert_value (insert_value t v) v) = true
    ∧ find_value (insert_value (insert_value t v) v) v = true := by
  refine ⟨?_, subtree_double_insert t v, find_insert_self (insert_value t v) v⟩
  obtain ⟨A, B, hAB⟩ := inorder_of_isSubtree (subtree_double_insert t v)
  refine ⟨A, B, ?_⟩
  rw [get_inorder_values_eq, hAB]
  simp [inorder]

/-- C4: inserting any two permutations of the same multiset of keys into an
initially empty tree yields identical `get_inorder_values` outputs. -/
theorem inorder_insertion_order_independent {α : Type} [LinearOrder α]
    (l₁ l₂ : List α) (hp : l₁.Perm l₂) :
    get_inorder_values (buildTree l₁) = get_inorder_values (buildTree l₂) := by
  rw [get_inorder_values_eq, get_inorder_values_eq]
  exact List.eq_of_perm_of_sorted
    ((inorder_buildTree_perm l₁).trans
      (hp.trans (inorder_buildTree_perm l₂).symm))
    (sorted_inorder (isBST_buildTree l₁))
    (sorted_inorder (isBST_buildTree l₂))

/-- Witness for C4 at a concrete pair of permutations of `{1, 2, 3}`. -/
theorem inorder_insertion_order_independent_witness :
    ([2, 1, 3] : List Int).Perm [3, 1, 2]
    ∧ get_inorder_values (buildTree ([2, 1, 3] : List Int))
        = get_inorder_values (buildTree ([3, 1, 2] : List Int)) :=
  ⟨by decide, inorder_insertion_order_independent [2, 1, 3] [3, 1, 2]
    (by decide)⟩

/-- C5: the demo script scenario: inserting `[8, 3, 10, 1, 6, 14, 4, 7]`
in order gives in-order values `[1, 3, 4, 6, 7, 8, 10, 14]`, `find_value 6`
is true and `find_value 13` is false. -/
theorem demo_scenario_literal :
    get_inorder_values (buildTree ([8, 3, 10, 1, 6, 14, 4, 7] : List Int))
        = [1, 3, 4, 6, 7, 8, 10, 14]
    ∧ find_value (buildTree ([8, 3, 10, 1, 6, 14, 4, 7] : List Int)) 6 = true
    ∧ find_value (buildTree ([8, 3, 10, 1, 6, 14, 4, 7] : List Int)) 13
        = false :=
  ⟨by decide, by decide, by decide⟩

/-- C6: inserting `[1, 2, 3, 4, 5]` in ascending order produces a
right-only chain of depth 5 (every node's left child absent), whose
in-order values are `[1, 2, 3, 4, 5]`. -/
theorem ascending_insert_degenerate_chain :
    buildTree ([1, 2, 3, 4, 5] : List Int)
        = Tree.node 1 .nil (Tree.node 2 .nil (Tree.node 3 .nil
            (Tree.node 4 .nil (Tree.node 5 .nil .nil))))
    ∧ allLeftNil (buildTree ([1, 2, 3, 4, 5] : List Int)) = true
    ∧ height (buildTree ([1, 2, 3, 4, 5] : List Int)) = 5
    ∧ get_inorder_values (buildTree ([1, 2, 3, 4, 5] : List Int))
        = [1, 2, 3, 4, 5] :=
  ⟨by decide, by decide, by decide, by decide⟩

/-- C7: a freshly constructed tree has empty `get_inorder_values` and
`find_value k` false for every key `k`. -/
theorem empty_tree_behavior {α : Type} [LinearOrder α] :
    get_inorder_values (Tree.nil : Tree α) = []
    ∧ ∀ k : α, find_value (Tree.nil : Tree α) k = false :=
  ⟨rfl, fun _ => rfl⟩

/-- C8: under dynamic typing, an inserted or searched key incomparable with
the stored keys makes `insert_value`/`find_value` surface a `TypeError`
(never silently succeed), the tree contents are unchanged whenever insert
raises, and comparability with all stored keys rules out any failure (the
sole failure condition). -/
theorem incomparable_key_failure (t : Tree PyVal) (v : PyVal) :
    ((insert_valueE t v).1.isSome = true → (insert_valueE t v).2 = t)
    ∧ (t ≠ Tree.nil → (∀ x ∈ inorder t, comparable v x = false) →
        (insert_valueE t v).1.isSome = true
          ∧ raised (find_valueE t v) = true)
    ∧ ((∀ x ∈ inorder t, comparable v x = true) →
        (insert_valueE t v).1 = none ∧ raised (find_valueE t v) = false) := by
  refine ⟨insert_valueE_error_unchanged t v, ?_,
    fun h => ⟨insert_valueE_ok t v h, find_recursiveE_ok t v h⟩⟩
  intro hne hinc
  cases t with
  | nil => exact absurd rfl hne
  | node value l r =>
      have hval : comparable v value = false :=
        hinc value (by simp [inorder])
      exact ⟨insert_valueE_raises hval, find_valueE_raises hval⟩

/-- Witness for C8: a one-node integer tree with a string key raises on
insert and find and is left unchanged; an integer key raises nothing. -/
theorem incomparable_key_failure_witness :
    ((insert_valueE (Tree.node (PyVal.int 5) .nil .nil)
        (PyVal.str "a")).1.isSome = true
      ∧ raised (find_valueE (Tree.node (PyVal.int 5) .nil .nil)
          (PyVal.str "a")) = true)
    ∧ (insert_valueE (Tree.node (PyVal.int 5) .nil .nil)
        (PyVal.str "a")).2 = Tree.node (PyVal.int 5) .nil .nil
    ∧ ((insert_valueE (Tree.node (PyVal.int 5) .nil .nil)
        (PyVal.int 3)).1 = none
      ∧ raised (find_valueE (Tree.node (PyVal.int 5) .nil .nil)
          (PyVal.int 3)) = false) :=
  ⟨(incomparable_key_failure (Tree.node (PyVal.int 5) .nil .nil)
      (PyVal.str "a")).2.1 (by decide) (by decide),
   (incomparable_key_failure (Tree.node (PyVal.int 5) .nil .nil)
      (PyVal.str "a")).1 (by decide),
   (incomparable_key_failure (Tree.node (PyVal.int 5) .nil .nil)
      (PyVal.int 3)).2.2 (by decide)⟩

/-- C9: `find_value` and `get_inorder_values` are read-only: in
state-passing form each returns the tree unchanged along with the same
result as the pure function, and running the traversal twice in sequence
yields identical lists. -/
theorem find_and_inorder_read_only {α : Type} [LinearOrder α] (t : Tree α)
    (v : α) :
    (find_valueS t v).2 = t
    ∧ (find_valueS t v).1 = find_value t v
    ∧ (get_inorder_valuesS t).2 = t
    ∧ (get_inorder_valuesS ((get_inorder_valuesS t).2)).1
        = (get_inorder_valuesS t).1 := by
  simp [find_valueS, find_recursiveS_eq, find_value,
    get_inorder_valuesS, inorder_traversalS_eq]

/-- C10: for every BST `t` and key `v`, `get_inorder_values` after
`insert_value t v` equals the previous listing with one copy of `v`
inserted at its sorted position. -/
theorem insert_adds_exactly_one_key {α : Type} [LinearOrder α] (t : Tree α)
    (v : α) (h : isBST t = true) :
    get_inorder_values (insert_value t v) =
      List.orderedInsert (· ≤ ·) v (get_inorder_values t) := by
  rw [get_inorder_values_eq, get_inorder_values_eq]
  exact List.eq_of_perm_of_sorted
    ((inorder_insert_perm t v).trans
      (List.perm_orderedInsert (· ≤ ·) v (inorder t)).symm)
    (sorted_inorder (isBST_insert v h))
    (List.Sorted.orderedInsert v (inorder t) (sorted_inorder h))

/-- Witness for C10 on the tree built from `[5, 2, 8]` with new key `4`. -/
theorem insert_adds_exactly_one_key_witness :
    isBST (buildTree ([5, 2, 8] : List Int)) = true
    ∧ get_inorder_values (insert_value (buildTree ([5, 2, 8] : List Int)) 4)
        = List.orderedInsert (· ≤ ·) 4
            (get_inorder_values (buildTree ([5, 2, 8] : List Int))) :=
  ⟨by decide, insert_adds_exactly_one_key (buildTree [5, 2, 8]) 4 (by decide)⟩

end BST
